import Mathlib

/-!
Verification of the BeatZGPT text-humanization core.

The development shallowly embeds the core modules of the repository:
`src/core/space_manipulator.py` (the Unicode Space Codec),
`src/core/pipeline.py` (the Humanization Pipeline orchestrator),
`src/core/syntax_restructurer.py` (sentence-length balancing) and
`src/core/semantic_replacer.py` (discourse markers, phrase substitution and
content-word synonym replacement).  Texts are lists of characters; the seeded
pseudo-random generator `random.Random(seed)` is modelled as a stream of
rational draws in `[0,1)` indexed by the number of draws consumed so far, and
external collaborators (the spaCy parser, WordNet, the embedding-similarity
and readability services) are abstracted as function parameters.
-/

namespace BeatZ

/-- A text, as a position-indexed list of characters (a Python string). -/
abbrev Text := List Char

/-- A seeded pseudo-random stream: `g k` models the value the `k`-th draw from
`random.Random(seed)` produces.  The real generator only produces values in
`[0,1)`; theorems that need that fact take it as a hypothesis. -/
abbrev RandStream := ℕ → ℚ

/-- The index `random.choice` picks from one draw `q` of the stream among `n`
alternatives: the integer part of `q * n` (computed on the numerator and
denominator), reduced modulo `n` so that a nonempty list always yields one of
its members. -/
def pickIdx (q : ℚ) (n : ℕ) : ℕ :=
  (q.num * n / (q.den : ℤ)).toNat % n

/-- `random.choice` on a character list, driven by one draw of the stream. -/
def pickChar (q : ℚ) (xs : List Char) : Char :=
  xs.getD (pickIdx q xs.length) ' '

/-- `random.choice` on a list of texts, driven by one draw of the stream. -/
def pickText (q : ℚ) (xs : List Text) : Text :=
  xs.getD (pickIdx q xs.length) []

/-! ## The Unicode Space Codec (`src/core/space_manipulator.py`) -/

/-- The eight non-standard Unicode space variants of
`SpaceManipulator.SPACE_VARIANTS`, in dictionary insertion order and excluding
the `standard` ASCII space: the list `self.variants` built by
`SpaceManipulator.__init__`. -/
def spaceVariants : List Char :=
  [Char.ofNat 0x00A0, Char.ofNat 0x2002, Char.ofNat 0x2003, Char.ofNat 0x2009,
   Char.ofNat 0x200A, Char.ofNat 0x200B, Char.ofNat 0x2007, Char.ofNat 0x202F]

/-- The boundary test of `SpaceManipulator.replace_spaces` for the character at
the head of the remaining suffix `rest`: `prev` is the character just before
the current position (`none` at the start of the text).  It matches
`is_start or is_end or is_line_boundary` in the source: first character, last
character, or a newline immediately before or after. -/
def spaceBoundary (prev : Option Char) (rest : Text) : Bool :=
  prev.isNone || rest.isEmpty || prev == some '\n' || rest.head? == some '\n'

/-- The character scan of `SpaceManipulator.replace_spaces` (the
`for i, char in enumerate(text)` loop).  `k` counts the draws consumed from
the stream so far; the result is the transformed suffix together with the
final draw counter.  A boundary space (when `pb` is set) is copied without
consuming a draw; a candidate space consumes one draw for the Bernoulli trial
and, on success, a second draw for the choice of variant. -/
def replaceSpacesGo (intensity : ℚ) (g : RandStream) (pb : Bool) :
    Option Char → Text → ℕ → Text × ℕ
  | _, [], k => ([], k)
  | prev, c :: rest, k =>
    if c = ' ' then
      if pb && spaceBoundary prev rest then
        let r := replaceSpacesGo intensity g pb (some c) rest k
        (c :: r.1, r.2)
      else if g k < intensity then
        let rep := pickChar (g (k + 1)) spaceVariants
        let r := replaceSpacesGo intensity g pb (some c) rest (k + 2)
        (rep :: r.1, r.2)
      else
        let r := replaceSpacesGo intensity g pb (some c) rest (k + 1)
        (c :: r.1, r.2)
    else
      let r := replaceSpacesGo intensity g pb (some c) rest k
      (c :: r.1, r.2)

/-- The state `SpaceManipulator.__init__` stores: the replacement intensity.
The seeded generator is passed separately as a `RandStream`. -/
structure SpaceManipulator where
  intensity : ℚ

/-- `SpaceManipulator.__init__`: an intensity outside `[0.0, 1.0]` raises
`ValueError`, so no manipulator object is built. -/
def mkSpaceManipulator (intensity : ℚ) : Except String SpaceManipulator :=
  if 0 ≤ intensity ∧ intensity ≤ 1 then .ok ⟨intensity⟩
  else .error "Intensity must be between 0.0 and 1.0"

/-- `SpaceManipulator.replace_spaces`: empty text or intensity `0.0` returns
the text unchanged; otherwise the text is scanned left to right by
`replaceSpacesGo` starting with no previous character and draw counter `0`. -/
def SpaceManipulator.replace_spaces (m : SpaceManipulator) (g : RandStream)
    (text : Text) (preserveBoundaries : Bool) : Text :=
  if text = [] ∨ m.intensity = 0 then text
  else (replaceSpacesGo m.intensity g preserveBoundaries none text 0).1

/-- A fresh run as the pipeline performs it: construct a `SpaceManipulator`
with the given intensity (validated as in `__init__`) and a stream freshly
derived from the seed by the generator `F` (modelling `random.Random(seed)`),
then call `replace_spaces` once.  `none` when construction fails. -/
def spaceCodecRun (F : ℕ → RandStream) (seed : ℕ) (intensity : ℚ)
    (text : Text) (preserveBoundaries : Bool) : Option Text :=
  match mkSpaceManipulator intensity with
  | .ok m => some (m.replace_spaces (F seed) text preserveBoundaries)
  | .error _ => none

/-- Position `j` of the suffix `rest` (whose predecessor character is `prev`)
is a boundary position in the sense of `replace_spaces`: first or last
character of the whole text, or immediately adjacent to a newline. -/
def spaceBoundaryAt (prev : Option Char) (rest : Text) (j : ℕ) : Prop :=
  (j = 0 ∧ prev = none) ∨ j + 1 = rest.length ∨
    (j = 0 ∧ prev = some '\n') ∨ (1 ≤ j ∧ rest[j-1]? = some '\n') ∨
    rest[j+1]? = some '\n'

/-- The number of candidate positions of the scan: ASCII spaces that are not
skipped by the boundary rule.  Draws are consumed only at these positions. -/
def candidateCount (pb : Bool) : Option Char → Text → ℕ
  | _, [] => 0
  | prev, c :: rest =>
    (if c = ' ' && !(pb && spaceBoundary prev rest) then 1 else 0) +
      candidateCount pb (some c) rest

theorem replaceSpacesGo_length (ι : ℚ) (g : RandStream) (pb : Bool) :
    ∀ (rest : Text) (prev : Option Char) (k : ℕ),
      (replaceSpacesGo ι g pb prev rest k).1.length = rest.length := by
  intro rest
  induction rest with
  | nil => intro prev k; simp [replaceSpacesGo]
  | cons c cs ih =>
    intro prev k
    simp only [replaceSpacesGo]
    split <;> [skip; simp [ih]]
    split <;> [simp [ih]; skip]
    split <;> simp [ih]

theorem pickIdx_lt (q : ℚ) (n : ℕ) (hn : 0 < n) : pickIdx q n < n :=
  Nat.mod_lt _ hn

theorem pickChar_mem (q : ℚ) : pickChar q spaceVariants ∈ spaceVariants := by
  have h : pickIdx q spaceVariants.length < spaceVariants.length :=
    pickIdx_lt q _ (by decide)
  unfold pickChar
  rw [List.getD_eq_getElem _ _ h]
  exact List.getElem_mem h

theorem pickText_mem (q : ℚ) (xs : List Text) (hxs : xs ≠ []) :
    pickText q xs ∈ xs := by
  have h : pickIdx q xs.length < xs.length :=
    pickIdx_lt q _ (List.length_pos.2 hxs)
  unfold pickText
  rw [List.getD_eq_getElem _ _ h]
  exact List.getElem_mem h

theorem replaceSpacesGo_cons_nospace (ι : ℚ) (g : RandStream) (pb : Bool)
    (prev : Option Char) (c : Char) (cs : Text) (k : ℕ) (hc : c ≠ ' ') :
    replaceSpacesGo ι g pb prev (c :: cs) k =
      (c :: (replaceSpacesGo ι g pb (some c) cs k).1,
        (replaceSpacesGo ι g pb (some c) cs k).2) := by
  simp [replaceSpacesGo, hc]

theorem replaceSpacesGo_cons_boundary (ι : ℚ) (g : RandStream) (pb : Bool)
    (prev : Option Char) (cs : Text) (k : ℕ)
    (hb : (pb && spaceBoundary prev cs) = true) :
    replaceSpacesGo ι g pb prev (' ' :: cs) k =
      (' ' :: (replaceSpacesGo ι g pb (some ' ') cs k).1,
        (replaceSpacesGo ι g pb (some ' ') cs k).2) := by
  simp [replaceSpacesGo, hb]

theorem replaceSpacesGo_cons_hit (ι : ℚ) (g : RandStream) (pb : Bool)
    (prev : Option Char) (cs : Text) (k : ℕ)
    (hb : (pb && spaceBoundary prev cs) = false) (ht : g k < ι) :
    replaceSpacesGo ι g pb prev (' ' :: cs) k =
      (pickChar (g (k + 1)) spaceVariants ::
          (replaceSpacesGo ι g pb (some ' ') cs (k + 2)).1,
        (replaceSpacesGo ι g pb (some ' ') cs (k + 2)).2) := by
  simp [replaceSpacesGo, hb, ht]

theorem replaceSpacesGo_cons_miss (ι : ℚ) (g : RandStream) (pb : Bool)
    (prev : Option Char) (cs : Text) (k : ℕ)
    (hb : (pb && spaceBoundary prev cs) = false) (ht : ¬ g k < ι) :
    replaceSpacesGo ι g pb prev (' ' :: cs) k =
      (' ' :: (replaceSpacesGo ι g pb (some ' ') cs (k + 1)).1,
        (replaceSpacesGo ι g pb (some ' ') cs (k + 1)).2) := by
  simp [replaceSpacesGo, hb, ht]

theorem spaceBoundaryAt_zero {prev : Option Char} {c : Char} {cs : Text}
    (h : spaceBoundaryAt prev (c :: cs) 0) : spaceBoundary prev cs = true := by
  unfold spaceBoundaryAt at h
  rcases h with ⟨_, h⟩ | h | ⟨_, h⟩ | ⟨h1, _⟩ | h
  · simp [spaceBoundary, h]
  · have : cs = [] := by
      have h' := h.symm
      simpa [List.length_cons] using h'
    simp [spaceBoundary, this]
  · simp [spaceBoundary, h]
  · omega
  · have : cs.head? = some '\n' := by
      rw [List.head?_eq_getElem?]
      simpa using h
    simp [spaceBoundary, this]

theorem spaceBoundaryAt_succ {prev : Option Char} {c : Char} {cs : Text} {j : ℕ}
    (h : spaceBoundaryAt prev (c :: cs) (j + 1)) : spaceBoundaryAt (some c) cs j := by
  unfold spaceBoundaryAt at h ⊢
  rcases h with ⟨h0, _⟩ | h | ⟨h0, _⟩ | ⟨_, h⟩ | h
  · exact absurd h0 (Nat.succ_ne_zero j)
  · refine Or.inr (Or.inl ?_)
    simpa [List.length_cons] using h
  · exact absurd h0 (Nat.succ_ne_zero j)
  · cases j with
    | zero =>
      refine Or.inr (Or.inr (Or.inl ⟨rfl, ?_⟩))
      simpa using h
    | succ j' =>
      refine Or.inr (Or.inr (Or.inr (Or.inl ⟨Nat.le_add_left 1 j', ?_⟩)))
      simpa using h
  · refine Or.inr (Or.inr (Or.inr (Or.inr ?_)))
    simpa using h

/-- Pointwise description of the scan: each output position either carries the
input character unchanged, or the input held an ASCII space there and the
output holds one of the eight variants; and, with boundary preservation on, a
space at a boundary position always comes through unchanged. -/
theorem replaceSpacesGo_get (ι : ℚ) (g : RandStream) (pb : Bool) :
    ∀ (rest : Text) (prev : Option Char) (k j : ℕ),
      ((replaceSpacesGo ι g pb prev rest k).1[j]? = rest[j]? ∨
        (rest[j]? = some ' ' ∧
          ∃ v ∈ spaceVariants, (replaceSpacesGo ι g pb prev rest k).1[j]? = some v)) ∧
      (pb = true → rest[j]? = some ' ' → spaceBoundaryAt prev rest j →
        (replaceSpacesGo ι g pb prev rest k).1[j]? = some ' ') := by
  intro rest
  induction rest with
  | nil => intro prev k j; simp [replaceSpacesGo]
  | cons c cs ih =>
    intro prev k j
    by_cases hc : c = ' '
    · subst hc
      rcases hbb : (pb && spaceBoundary prev cs) with _ | _
      · -- not a boundary position: candidate space
        by_cases ht : g k < ι
        · rw [replaceSpacesGo_cons_hit ι g pb prev cs k hbb ht]
          cases j with
          | zero =>
            constructor
            · exact Or.inr ⟨by simp, pickChar (g (k + 1)) spaceVariants,
                pickChar_mem _, by simp⟩
            · intro hpb _ hbdy
              subst hpb
              have := spaceBoundaryAt_zero hbdy
              simp [this] at hbb
          | succ j' =>
            have h := ih (some ' ') (k + 2) j'
            constructor
            · simpa using h.1
            · intro hpb hsp hbdy
              have := h.2 hpb (by simpa using hsp) (spaceBoundaryAt_succ hbdy)
              simpa using this
        · rw [replaceSpacesGo_cons_miss ι g pb prev cs k hbb ht]
          cases j with
          | zero => exact ⟨Or.inl (by simp), fun _ _ _ => by simp⟩
          | succ j' =>
            have h := ih (some ' ') (k + 1) j'
            constructor
            · simpa using h.1
            · intro hpb hsp hbdy
              have := h.2 hpb (by simpa using hsp) (spaceBoundaryAt_succ hbdy)
              simpa using this
      · -- boundary position: copied, no draw consumed
        rw [replaceSpacesGo_cons_boundary ι g pb prev cs k hbb]
        cases j with
        | zero => exact ⟨Or.inl (by simp), fun _ _ _ => by simp⟩
        | succ j' =>
          have h := ih (some ' ') k j'
          constructor
          · simpa using h.1
          · intro hpb hsp hbdy
            have := h.2 hpb (by simpa using hsp) (spaceBoundaryAt_succ hbdy)
            simpa using this
    · rw [replaceSpacesGo_cons_nospace ι g pb prev c cs k hc]
      cases j with
      | zero =>
        refine ⟨Or.inl (by simp), fun _ hsp _ => ?_⟩
        simp at hsp
        exact absurd hsp hc
      | succ j' =>
        have h := ih (some c) k j'
        constructor
        · simpa using h.1
        · intro hpb hsp hbdy
          have := h.2 hpb (by simpa using hsp) (spaceBoundaryAt_succ hbdy)
          simpa using this

/-- Draw accounting for the scan: the final counter exceeds the initial one by
at least one draw per candidate position (the Bernoulli trial) and at most two
(trial plus variant choice); in particular no draw is consumed at boundary or
non-space positions. -/
theorem replaceSpacesGo_draws (ι : ℚ) (g : RandStream) (pb : Bool) :
    ∀ (rest : Text) (prev : Option Char) (k : ℕ),
      k + candidateCount pb prev rest ≤ (replaceSpacesGo ι g pb prev rest k).2 ∧
      (replaceSpacesGo ι g pb prev rest k).2 ≤ k + 2 * candidateCount pb prev rest := by
  intro rest
  induction rest with
  | nil => intro prev k; simp [replaceSpacesGo, candidateCount]
  | cons c cs ih =>
    intro prev k
    by_cases hc : c = ' '
    · subst hc
      rcases hbb : (pb && spaceBoundary prev cs) with _ | _
      · have hcand : candidateCount pb prev (' ' :: cs) =
            1 + candidateCount pb (some ' ') cs := by
          simp [candidateCount, hbb]
        by_cases ht : g k < ι
        · rw [replaceSpacesGo_cons_hit ι g pb prev cs k hbb ht, hcand]
          have h := ih (some ' ') (k + 2)
          omega
        · rw [replaceSpacesGo_cons_miss ι g pb prev cs k hbb ht, hcand]
          have h := ih (some ' ') (k + 1)
          omega
      · have hcand : candidateCount pb prev (' ' :: cs) =
            candidateCount pb (some ' ') cs := by
          simp [candidateCount, hbb]
        rw [replaceSpacesGo_cons_boundary ι g pb prev cs k hbb, hcand]
        have h := ih (some ' ') k
        omega
    · have hcand : candidateCount pb prev (c :: cs) =
          candidateCount pb (some c) cs := by
        simp [candidateCount, hc]
      rw [replaceSpacesGo_cons_nospace ι g pb prev c cs k hc, hcand]
      have h := ih (some c) k
      omega

/-- Claim C3: for every input text, every intensity in [0,1], every seed
(stream) and either value of `preserve_boundaries`, the output of the Space
Codec `replace_spaces` has exactly the same number of characters as the input,
and only code points at positions holding an ASCII space may differ. -/
theorem replace_spaces_length_and_frame (ι : ℚ) (g : RandStream) (text : Text)
    (pb : Bool) (h0 : 0 ≤ ι) (h1 : ι ≤ 1) :
    ((SpaceManipulator.mk ι).replace_spaces g text pb).length = text.length ∧
    ∀ j : ℕ, ((SpaceManipulator.mk ι).replace_spaces g text pb)[j]? ≠ text[j]? →
      text[j]? = some ' ' := by
  unfold SpaceManipulator.replace_spaces
  split
  · simp
  · constructor
    · exact replaceSpacesGo_length ι g pb text none 0
    · intro j hne
      rcases (replaceSpacesGo_get ι g pb text none 0 j).1 with h | ⟨hsp, _⟩
      · exact absurd h hne
      · exact hsp

theorem replace_spaces_length_and_frame_witness :
    ((0:ℚ) ≤ 1/2 ∧ (1/2:ℚ) ≤ 1) ∧
      ((SpaceManipulator.mk (1/2)).replace_spaces (fun _ => 0) "a b".toList
          true).length = ("a b".toList).length :=
  ⟨⟨by norm_num, by norm_num⟩,
    (replace_spaces_length_and_frame (1/2) (fun _ => 0) "a b".toList true
      (by norm_num) (by norm_num)).1⟩

/-- Claim C4: with `preserve_boundaries` true, every ASCII space that is the
first or last character of the text or immediately adjacent to a newline
appears unchanged at the same position in the output of `replace_spaces`; and
the scan consumes draws only at non-boundary ASCII-space positions — the final
draw counter exceeds the initial one by at least one and at most two draws per
candidate (non-boundary space) position, so boundary positions consume none. -/
theorem replace_spaces_boundary_frame (ι : ℚ) (g : RandStream) (text : Text) :
    (∀ j : ℕ, text[j]? = some ' ' →
      (j = 0 ∨ j + 1 = text.length ∨ (1 ≤ j ∧ text[j-1]? = some '\n') ∨
        text[j+1]? = some '\n') →
      ((SpaceManipulator.mk ι).replace_spaces g text true)[j]? = some ' ') ∧
    (∀ (prev : Option Char) (rest : Text) (k : ℕ),
      k + candidateCount true prev rest ≤ (replaceSpacesGo ι g true prev rest k).2 ∧
      (replaceSpacesGo ι g true prev rest k).2 ≤
        k + 2 * candidateCount true prev rest) := by
  constructor
  · intro j hsp hb
    unfold SpaceManipulator.replace_spaces
    split
    · exact hsp
    · refine (replaceSpacesGo_get ι g true text none 0 j).2 rfl hsp ?_
      unfold spaceBoundaryAt
      rcases hb with h | h | h | h
      · exact Or.inl ⟨h, rfl⟩
      · exact Or.inr (Or.inl h)
      · exact Or.inr (Or.inr (Or.inr (Or.inl h)))
      · exact Or.inr (Or.inr (Or.inr (Or.inr h)))
  · intro prev rest k
    exact replaceSpacesGo_draws ι g true rest prev k

/-- Claim C5: `replace_spaces` at intensity 0 returns the text identically;
and at intensity 1 with boundaries disabled, provided the stream produces
values in `[0,1)` as `random.random()` does, every ASCII space of a text that
contains one is replaced by one of the eight non-ASCII variants, so the count
of ASCII spaces strictly decreases. -/
theorem replace_spaces_intensity_extremes :
    (∀ (g : RandStream) (text : Text) (pb : Bool),
      (SpaceManipulator.mk 0).replace_spaces g text pb = text) ∧
    (∀ (g : RandStream) (text : Text), (∀ n, 0 ≤ g n ∧ g n < 1) → ' ' ∈ text →
      (∀ j : ℕ, text[j]? = some ' ' →
        ∃ v ∈ spaceVariants,
          ((SpaceManipulator.mk 1).replace_spaces g text false)[j]? = some v) ∧
      ((SpaceManipulator.mk 1).replace_spaces g text false).count ' ' <
        text.count ' ') := by
  have key : ∀ (g : RandStream), (∀ n, 0 ≤ g n ∧ g n < 1) →
      ∀ (rest : Text) (prev : Option Char) (k j : ℕ), rest[j]? = some ' ' →
      ∃ v ∈ spaceVariants, (replaceSpacesGo 1 g false prev rest k).1[j]? = some v := by
    intro g hg rest
    induction rest with
    | nil => intro prev k j h; simp at h
    | cons c cs ih =>
      intro prev k j hj
      by_cases hc : c = ' '
      · subst hc
        have hbb : (false && spaceBoundary prev cs) = false := by simp
        have ht : g k < 1 := (hg k).2
        rw [replaceSpacesGo_cons_hit 1 g false prev cs k hbb ht]
        cases j with
        | zero =>
          exact ⟨pickChar (g (k + 1)) spaceVariants, pickChar_mem _, by simp⟩
        | succ j' =>
          have := ih (some ' ') (k + 2) j' (by simpa using hj)
          simpa using this
      · rw [replaceSpacesGo_cons_nospace 1 g false prev c cs k hc]
        cases j with
        | zero => simp at hj; exact absurd hj hc
        | succ j' =>
          have := ih (some c) k j' (by simpa using hj)
          simpa using this
  constructor
  · intro g text pb
    simp [SpaceManipulator.replace_spaces]
  · intro g text hg hmem
    have htne : text ≠ [] := by rintro rfl; simp at hmem
    have hout : (SpaceManipulator.mk 1).replace_spaces g text false =
        (replaceSpacesGo 1 g false none text 0).1 := by
      unfold SpaceManipulator.replace_spaces
      rw [if_neg]
      push_neg
      exact ⟨htne, by norm_num⟩
    constructor
    · intro j hj
      rw [hout]
      exact key g hg text none 0 j hj
    · have hzero : ((SpaceManipulator.mk 1).replace_spaces g text false).count ' ' = 0 := by
        rw [hout, List.count_eq_zero]
        intro hmem'
        obtain ⟨j, hj⟩ := List.mem_iff_getElem?.1 hmem'
        have hsp : text[j]? = some ' ' := by
          rcases (replaceSpacesGo_get 1 g false text none 0 j).1 with h | ⟨hsp, _⟩
          · rw [← h, hj]
          · exact hsp
        obtain ⟨v, hv, hvo⟩ := key g hg text none 0 j hsp
        rw [hj] at hvo
        have : ' ' ∈ spaceVariants := by
          have hv' : ' ' = v := by simpa using hvo
          rw [hv']
          exact hv
        revert this
        decide
      have hpos : 0 < text.count ' ' := List.count_pos_iff.2 hmem
      omega

/-- Claim C7: the Space Codec is deterministic — two independent runs, each
constructing a fresh `SpaceManipulator` with the same intensity and seed and
calling `replace_spaces` once on the same text and flag, produce identical
outputs.  The two runs may even use two instances `F1`, `F2` of the generator,
as long as they derive the same stream from the shared seed. -/
theorem space_codec_deterministic (F1 F2 : ℕ → RandStream) (seed : ℕ) (ι : ℚ)
    (text : Text) (pb : Bool) (h : F1 seed = F2 seed) :
    spaceCodecRun F1 seed ι text pb = spaceCodecRun F2 seed ι text pb := by
  unfold spaceCodecRun
  rw [h]

theorem space_codec_deterministic_witness :
    spaceCodecRun (fun _ _ => 0) 0 (1/2) "Hello world test".toList false =
      spaceCodecRun (fun s _ => if s = 0 then 0 else 1) 0 (1/2)
        "Hello world test".toList false :=
  space_codec_deterministic (fun _ _ => 0) (fun s _ => if s = 0 then 0 else 1)
    0 (1/2) "Hello world test".toList false (by funext n; simp)

/-! ## The Humanization Pipeline (`src/core/pipeline.py`) -/

/-- The configuration `HumanizationPipeline.__init__` stores: stage enable
flags and the quality threshold (`intensity` is held by the stage objects). -/
structure PipelineCfg where
  enableSyntax : Bool
  enableSemantics : Bool
  enableUnicode : Bool
  threshold : ℚ

/-- The collaborators `HumanizationPipeline.humanize` calls: the three stage
transforms (returning `none` when the call raises, as the per-stage
`try/except` treats it), the embedding similarity service
(`SemanticSimilarityChecker.calculate_similarity`) and the external
readability grade (`textstat.flesch_kincaid_grade`). -/
structure PipelineOracles where
  restructure : Text → Option Text
  replaceSem : Text → Option Text
  replaceSpc : Text → Option Text
  sim : Text → Text → ℚ
  grade : Text → ℚ

/-- `ReadabilityAnalyzer.compare`: the percent change of the readability
grade, `((modified - original) / original) * 100`, and `0` when the original
grade is `0`. -/
def readabilityChange (O : PipelineOracles) (original modified : Text) : ℚ :=
  if O.grade original = 0 then 0
  else (O.grade modified - O.grade original) / O.grade original * 100

/-- One gated stage of `humanize` (steps 1 and 2): run the transform on the
current text; on success score the candidate against the *original* text and
advance, recording the stage name, only when similarity reaches the threshold;
on failure or rejection keep the state unchanged. -/
def gatedStage (th : ℚ) (original : Text) (name : String)
    (transform : Text → Option Text) (sim : Text → Text → ℚ) (enabled : Bool)
    (s : Text × List String) : Text × List String :=
  if enabled then
    match transform s.1 with
    | some cand => if sim original cand ≥ th then (cand, s.2 ++ [name]) else s
    | none => s
  else s

/-- The ungated Unicode stage of `humanize` (step 3): on success the candidate
always becomes the current text and the stage name is always recorded — the
source performs no similarity check here. -/
def ungatedStage (name : String) (transform : Text → Option Text)
    (enabled : Bool) (s : Text × List String) : Text × List String :=
  if enabled then
    match transform s.1 with
    | some cand => (cand, s.2 ++ [name])
    | none => s
  else s

/-- The stage sequence of `HumanizationPipeline.humanize` in its fixed order:
Syntax (gated), Lexical (gated), Space (ungated), starting from the input text
and an empty list of applied transformations. -/
def pipelineStages (cfg : PipelineCfg) (O : PipelineOracles) (text : Text) :
    Text × List String :=
  ungatedStage "unicode_manipulation" O.replaceSpc cfg.enableUnicode
    (gatedStage cfg.threshold text "semantic_replacement" O.replaceSem O.sim
      cfg.enableSemantics
      (gatedStage cfg.threshold text "syntax_restructuring" O.restructure O.sim
        cfg.enableSyntax (text, [])))

/-- `not text or not text.strip()`: the short-circuit test of `humanize`. -/
def isBlank (text : Text) : Bool :=
  text.all Char.isWhitespace

/-- The result dictionary of `humanize`, restricted to the fields the claims
concern: the original text, the humanized text, the list of applied
transformations, and whether the final quality check passed. -/
structure HumanizeResult where
  original : Text
  humanized : Text
  applied : List String
  passed : Bool
  deriving DecidableEq

/-- `HumanizationPipeline.humanize`: blank input short-circuits with a
trivially passing result; otherwise the enabled stages run in order, the final
candidate is scored against the original by the composite gate (similarity at
least the threshold and absolute readability percent change at most 5.0), and
a failing gate rolls back to the original text with an empty stage list. -/
def humanize (cfg : PipelineCfg) (O : PipelineOracles) (text : Text) :
    HumanizeResult :=
  if isBlank text then ⟨text, text, [], true⟩
  else if O.sim text (pipelineStages cfg O text).1 ≥ cfg.threshold ∧
      |readabilityChange O text (pipelineStages cfg O text).1| ≤ 5 then
    ⟨text, (pipelineStages cfg O text).1, (pipelineStages cfg O text).2, true⟩
  else ⟨text, text, [], false⟩

/-- The full pipeline state `HumanizationPipeline.__init__` builds. -/
structure HumanizationPipeline where
  intensity : ℚ
  cfg : PipelineCfg
  spaceManipulator : SpaceManipulator

/-- `HumanizationPipeline.__init__`: the fields are assigned and the
components constructed; the only validation performed anywhere is
`SpaceManipulator.__init__` rejecting an intensity outside `[0,1]`.  The
quality threshold is stored without any check. -/
def mkHumanizationPipeline (intensity : ℚ) (enableSyntax enableSemantics
    enableUnicode : Bool) (threshold : ℚ) :
    Except String HumanizationPipeline :=
  match mkSpaceManipulator intensity with
  | .ok m =>
    .ok ⟨intensity, ⟨enableSyntax, enableSemantics, enableUnicode, threshold⟩, m⟩
  | .error e => .error e

theorem gatedStage_mem (th : ℚ) (orig : Text) (nm : String)
    (f : Text → Option Text) (sim : Text → Text → ℚ) (en : Bool)
    (s : Text × List String) (x : String) :
    x ∈ (gatedStage th orig nm f sim en s).2 ↔
      x ∈ s.2 ∨ (x = nm ∧ en = true ∧
        ∃ cand, f s.1 = some cand ∧ sim orig cand ≥ th) := by
  cases en with
  | false => simp [gatedStage]
  | true =>
    cases hf : f s.1 with
    | none => simp [gatedStage, hf]
    | some cand =>
      by_cases hsim : sim orig cand ≥ th
      · simp [gatedStage, hf, hsim]
      · simp [gatedStage, hf, hsim]

theorem ungatedStage_mem (nm : String) (f : Text → Option Text) (en : Bool)
    (s : Text × List String) (x : String) :
    x ∈ (ungatedStage nm f en s).2 ↔
      x ∈ s.2 ∨ (x = nm ∧ en = true ∧ ∃ cand, f s.1 = some cand) := by
  cases en with
  | false => simp [ungatedStage]
  | true =>
    cases hf : f s.1 with
    | none => simp [ungatedStage, hf]
    | some cand => simp [ungatedStage, hf]

theorem gatedStage_snd_shape (th : ℚ) (orig : Text) (nm : String)
    (f : Text → Option Text) (sim : Text → Text → ℚ) (en : Bool)
    (s : Text × List String) :
    (gatedStage th orig nm f sim en s).2 = s.2 ∨
      (gatedStage th orig nm f sim en s).2 = s.2 ++ [nm] := by
  cases en with
  | false => left; rfl
  | true =>
    cases hf : f s.1 with
    | none => left; simp [gatedStage, hf]
    | some cand =>
      by_cases hsim : sim orig cand ≥ th
      · right; simp [gatedStage, hf, hsim]
      · left; simp [gatedStage, hf, hsim]

theorem ungatedStage_snd_shape (nm : String) (f : Text → Option Text)
    (en : Bool) (s : Text × List String) :
    (ungatedStage nm f en s).2 = s.2 ∨
      (ungatedStage nm f en s).2 = s.2 ++ [nm] := by
  cases en with
  | false => left; rfl
  | true =>
    cases hf : f s.1 with
    | none => left; simp [ungatedStage, hf]
    | some cand => right; simp [ungatedStage, hf]

/-- The concrete configuration used to exhibit the ungated Space stage: only
the Unicode stage enabled, quality threshold 1. -/
def cexCfg : PipelineCfg := ⟨false, false, true, 1⟩

/-- Concrete collaborators for the counterexample: the Space transform always
produces the text `xx`, similarity is 1 on identical texts and 0 otherwise,
and the readability grade is constant (so its percent change is 0). -/
def cexOracles : PipelineOracles :=
  ⟨fun _ => none, fun _ => none, fun _ => some "xx".toList,
    fun a b => if a == b then 1 else 0, fun _ => 5⟩

/-- Claim C1 counterexample: with only the Space stage enabled and a candidate
whose similarity to the original (0) is below the threshold (0.85), the stage
pass still advances the current text to the candidate and records
`unicode_manipulation` — the source performs no per-stage quality check for
the Unicode stage, contradicting the claim that every enabled stage is gated.
The run is then observably rolled back by the final gate, so `passed` is
false where the claim would have the stage rejected and the gate pass. -/
theorem pipeline_space_stage_ungated_cex :
    pipelineStages cexCfg cexOracles "hi".toList =
      ("xx".toList, ["unicode_manipulation"]) ∧
    cexOracles.sim "hi".toList "xx".toList < cexCfg.threshold ∧
    "xx".toList ≠ "hi".toList ∧
    humanize cexCfg cexOracles "hi".toList =
      ⟨"hi".toList, "hi".toList, [], false⟩ := by
  have hstages : pipelineStages cexCfg cexOracles "hi".toList =
      ("xx".toList, ["unicode_manipulation"]) := by decide
  have hsim : cexOracles.sim "hi".toList "xx".toList = 0 := by decide
  refine ⟨hstages, ?_, by decide, ?_⟩
  · rw [hsim]
    norm_num [cexCfg]
  · unfold humanize
    rw [if_neg (by decide), if_neg]
    rintro ⟨h1, -⟩
    rw [hstages] at h1
    rw [hsim] at h1
    norm_num [cexCfg] at h1

/-- Claim C1 (amended): for every configuration, collaborators and input, the
stage pass of `humanize` applies the stages in the fixed order Syntax,
Lexical, Space (the recorded names form a subsequence of that order); the
Syntax and Lexical stages advance and record their name exactly when enabled,
their transform succeeds and the candidate scores at least the threshold
against the original text; the Space stage advances and records its name
exactly when enabled and its transform succeeds, with no similarity check. -/
theorem pipeline_stage_gating (cfg : PipelineCfg) (O : PipelineOracles)
    (text : Text) :
    (pipelineStages cfg O text).2.Sublist
      ["syntax_restructuring", "semantic_replacement", "unicode_manipulation"] ∧
    ("syntax_restructuring" ∈ (pipelineStages cfg O text).2 ↔
      cfg.enableSyntax = true ∧ ∃ cand, O.restructure text = some cand ∧
        O.sim text cand ≥ cfg.threshold) ∧
    ("semantic_replacement" ∈ (pipelineStages cfg O text).2 ↔
      cfg.enableSemantics = true ∧ ∃ cand,
        O.replaceSem (gatedStage cfg.threshold text "syntax_restructuring"
          O.restructure O.sim cfg.enableSyntax (text, [])).1 = some cand ∧
        O.sim text cand ≥ cfg.threshold) ∧
    ("unicode_manipulation" ∈ (pipelineStages cfg O text).2 ↔
      cfg.enableUnicode = true ∧ ∃ cand,
        O.replaceSpc (gatedStage cfg.threshold text "semantic_replacement"
          O.replaceSem O.sim cfg.enableSemantics
          (gatedStage cfg.threshold text "syntax_restructuring" O.restructure
            O.sim cfg.enableSyntax (text, []))).1 = some cand) := by
  have hpip : pipelineStages cfg O text =
      ungatedStage "unicode_manipulation" O.replaceSpc cfg.enableUnicode
        (gatedStage cfg.threshold text "semantic_replacement" O.replaceSem
          O.sim cfg.enableSemantics
          (gatedStage cfg.threshold text "syntax_restructuring" O.restructure
            O.sim cfg.enableSyntax (text, []))) := rfl
  refine ⟨?_, ?_, ?_, ?_⟩
  · rw [hpip]
    rcases ungatedStage_snd_shape "unicode_manipulation" O.replaceSpc
        cfg.enableUnicode (gatedStage cfg.threshold text "semantic_replacement"
          O.replaceSem O.sim cfg.enableSemantics
          (gatedStage cfg.threshold text "syntax_restructuring" O.restructure
            O.sim cfg.enableSyntax (text, []))) with h3 | h3 <;>
      rw [h3] <;>
      rcases gatedStage_snd_shape cfg.threshold text "semantic_replacement"
        O.replaceSem O.sim cfg.enableSemantics
        (gatedStage cfg.threshold text "syntax_restructuring" O.restructure
          O.sim cfg.enableSyntax (text, [])) with h2 | h2 <;>
      rw [h2] <;>
      rcases gatedStage_snd_shape cfg.threshold text "syntax_restructuring"
        O.restructure O.sim cfg.enableSyntax (text, []) with h1 | h1 <;>
      rw [h1] <;>
      (simp only [show ((text, ([] : List String)).2) = [] from rfl,
        List.nil_append, List.cons_append, List.append_assoc]; decide)
  · rw [hpip, ungatedStage_mem, gatedStage_mem, gatedStage_mem]
    simp
  · rw [hpip, ungatedStage_mem, gatedStage_mem]
    simp
    intro hmem
    rcases (gatedStage_mem cfg.threshold text "syntax_restructuring"
        O.restructure O.sim cfg.enableSyntax (text, [])
        "semantic_replacement").1 hmem with h | ⟨heq, _⟩
    · exact absurd h (by simp)
    · exact absurd heq (by decide)
  · rw [hpip, ungatedStage_mem]
    simp
    intro hmem
    rcases (gatedStage_mem cfg.threshold text "semantic_replacement"
        O.replaceSem O.sim cfg.enableSemantics
        (gatedStage cfg.threshold text "syntax_restructuring" O.restructure
          O.sim cfg.enableSyntax (text, []))
        "unicode_manipulation").1 hmem with h | ⟨heq, _⟩
    · rcases (gatedStage_mem cfg.threshold text "syntax_restructuring"
          O.restructure O.sim cfg.enableSyntax (text, [])
          "unicode_manipulation").1 h with h' | ⟨heq', _⟩
      · exact absurd h' (by simp)
      · exact absurd heq' (by decide)
    · exact absurd heq (by decide)

/-- Claim C2: for every input text, if the final composite quality gate of
`humanize` fails (so the result carries `passed = false`), the humanized text
equals the original input and the list of applied transformations is empty,
regardless of which stages had been accepted during the stage pass. -/
theorem humanize_rollback (cfg : PipelineCfg) (O : PipelineOracles)
    (text : Text) (h : (humanize cfg O text).passed = false) :
    (humanize cfg O text).humanized = text ∧
      (humanize cfg O text).applied = [] := by
  unfold humanize at h ⊢
  by_cases hb : isBlank text
  · simp [hb] at h
  · simp only [hb, Bool.false_eq_true, if_false] at h ⊢
    by_cases hg : O.sim text (pipelineStages cfg O text).1 ≥ cfg.threshold ∧
        |readabilityChange O text (pipelineStages cfg O text).1| ≤ 5
    · simp [hg] at h
    · simp [hg]

theorem humanize_rollback_witness :
    (humanize cexCfg cexOracles "hi".toList).humanized = "hi".toList ∧
      (humanize cexCfg cexOracles "hi".toList).applied = [] :=
  humanize_rollback cexCfg cexOracles "hi".toList (by decide)

/-- Claim C6 counterexample: a quality threshold outside [0,1] (here 2) does
not make construction fail — `HumanizationPipeline.__init__` never validates
the threshold, so the pipeline is built successfully. -/
theorem pipeline_ctor_threshold_unvalidated_cex :
    mkHumanizationPipeline 1 true true true 2 =
      .ok ⟨1, ⟨true, true, true, 2⟩, ⟨1⟩⟩ ∧ ¬((0:ℚ) ≤ 2 ∧ (2:ℚ) ≤ 1) := by
  constructor
  · simp [mkHumanizationPipeline, mkSpaceManipulator,
      show (0:ℚ) ≤ 1 ∧ (1:ℚ) ≤ 1 by norm_num]
  · norm_num

/-- Claim C6 (amended): pipeline construction fails — with the ValueError
message raised by `SpaceManipulator.__init__`, so no pipeline object is
built — exactly when the intensity lies outside [0,1]; the quality threshold
is not validated, so any threshold is accepted when the intensity is in
range. -/
theorem pipeline_ctor_validation (ι th : ℚ) (es em eu : Bool) :
    (¬(0 ≤ ι ∧ ι ≤ 1) → mkHumanizationPipeline ι es em eu th =
      .error "Intensity must be between 0.0 and 1.0") ∧
    ((0 ≤ ι ∧ ι ≤ 1) → mkHumanizationPipeline ι es em eu th =
      .ok ⟨ι, ⟨es, em, eu, th⟩, ⟨ι⟩⟩) := by
  constructor <;> intro h <;>
    simp [mkHumanizationPipeline, mkSpaceManipulator, h]

/-! ## Shared text utilities (Python string operations) -/

/-- Python `str.lower()`: every character lower-cased. -/
def lowerText (l : Text) : Text := l.map Char.toLower

/-- Python `str.strip()` with no argument: whitespace removed from both
ends. -/
def pyStrip (l : Text) : Text :=
  ((l.dropWhile Char.isWhitespace).reverse.dropWhile Char.isWhitespace).reverse

/-- Python `str.rstrip('.')`: all trailing full stops removed. -/
def rstripDots (l : Text) : Text :=
  (l.reverse.dropWhile (fun c => c == '.')).reverse

/-- Python `str.rstrip()` with no argument: trailing whitespace removed. -/
def rstripWs (l : Text) : Text :=
  (l.reverse.dropWhile Char.isWhitespace).reverse

/-- Worker for Python `str.split()` with no argument: `acc` holds the
characters of the current word, most recent first. -/
def splitWsAux : Text → Text → List Text
  | [], acc => if acc.isEmpty then [] else [acc.reverse]
  | c :: rest, acc =>
    if c.isWhitespace then
      if acc.isEmpty then splitWsAux rest []
      else acc.reverse :: splitWsAux rest []
    else splitWsAux rest (c :: acc)

/-- Python `str.split()` with no argument: maximal runs of non-whitespace
characters, in order; empty pieces never occur. -/
def splitWs (l : Text) : List Text := splitWsAux l []

/-! ## The Syntax Rewriting Engine (`src/core/syntax_restructurer.py`) -/

/-- The fixed connector list of `vary_sentence_complexity`. -/
def connectors : List Text := ["and".toList, "while".toList, "as".toList]

/-- `SyntaxRestructurer.vary_sentence_complexity` (the `while i < len`
loop over the sentence list): a sentence of more than 30 words containing a
comma is split at its first comma (both parts stripped, a full stop appended
to the first); otherwise two consecutive sentences of fewer than 8 words each
are merged with a random connector, the first sentence losing its trailing
full stops and the second sentence lower-cased by `str.lower()`; otherwise the
sentence is kept.  After a merge the scan continues after the consumed pair.
`k` is the draw counter of the shared generator. -/
def vary_sentence_complexity (g : RandStream) : List Text → ℕ → List Text × ℕ
  | [], k => ([], k)
  | [s], k =>
    if 30 < (splitWs s).length ∧ ',' ∈ s then
      ([pyStrip (s.takeWhile (fun c => c != ',')) ++ ['.'],
        pyStrip ((s.dropWhile (fun c => c != ',')).drop 1)], k)
    else ([s], k)
  | s :: next :: rest2, k =>
    if 30 < (splitWs s).length ∧ ',' ∈ s then
      let r := vary_sentence_complexity g (next :: rest2) k
      ((pyStrip (s.takeWhile (fun c => c != ',')) ++ ['.']) ::
        pyStrip ((s.dropWhile (fun c => c != ',')).drop 1) :: r.1, r.2)
    else if (splitWs s).length < 8 ∧ (splitWs next).length < 8 then
      let conn := pickText (g k) connectors
      let r := vary_sentence_complexity g rest2 (k + 1)
      ((rstripDots s ++ [' '] ++ conn ++ [' '] ++ lowerText next) :: r.1, r.2)
    else
      let r := vary_sentence_complexity g (next :: rest2) k
      (s :: r.1, r.2)

/-- Claim C9 counterexample: merging the short sentences `He ran.` and
`NASA did it.` produces `He ran and nasa did it.` — the source lower-cases
the whole second sentence with `str.lower()`, not only its first letter, so
the interior capitals of `NASA` are lost, contradicting the claim. -/
theorem vary_sentence_merge_lowercases_cex :
    (vary_sentence_complexity (fun _ => 0)
        ["He ran.".toList, "NASA did it.".toList] 0).1 =
      ["He ran and nasa did it.".toList] ∧
    "He ran and nasa did it.".toList ≠ "He ran and nASA did it.".toList := by
  constructor <;> decide

/-- Claim C9 (amended): in sentence-length balancing, a sentence of more than
30 words containing a comma is split at its first comma into two sentences
(both stripped, the first given a full stop); two consecutive sentences of
fewer than 8 words each are merged with a connector drawn from
`and`/`while`/`as`, the trailing full stops of the first stripped and the
*entire* second sentence lower-cased; all other sentences pass through, and
the scan is greedy left to right, continuing after any consumed span. -/
theorem vary_sentence_complexity_spec (g : RandStream) :
    (∀ (s : Text) (rest : List Text) (k : ℕ),
      30 < (splitWs s).length → ',' ∈ s →
      vary_sentence_complexity g (s :: rest) k =
        ((pyStrip (s.takeWhile (fun c => c != ',')) ++ ['.']) ::
          pyStrip ((s.dropWhile (fun c => c != ',')).drop 1) ::
          (vary_sentence_complexity g rest k).1,
          (vary_sentence_complexity g rest k).2)) ∧
    (∀ (s next : Text) (rest2 : List Text) (k : ℕ),
      ¬(30 < (splitWs s).length ∧ ',' ∈ s) →
      (splitWs s).length < 8 → (splitWs next).length < 8 →
      ∃ conn ∈ connectors,
        vary_sentence_complexity g (s :: next :: rest2) k =
          ((rstripDots s ++ [' '] ++ conn ++ [' '] ++ lowerText next) ::
            (vary_sentence_complexity g rest2 (k + 1)).1,
            (vary_sentence_complexity g rest2 (k + 1)).2)) ∧
    (∀ (s next : Text) (rest2 : List Text) (k : ℕ),
      ¬(30 < (splitWs s).length ∧ ',' ∈ s) →
      ¬((splitWs s).length < 8 ∧ (splitWs next).length < 8) →
      vary_sentence_complexity g (s :: next :: rest2) k =
        (s :: (vary_sentence_complexity g (next :: rest2) k).1,
          (vary_sentence_complexity g (next :: rest2) k).2)) ∧
    (∀ (s : Text) (k : ℕ),
      ¬(30 < (splitWs s).length ∧ ',' ∈ s) →
      vary_sentence_complexity g [s] k = ([s], k)) := by
  refine ⟨?_, ?_, ?_, ?_⟩
  · intro s rest k h30 hcomma
    cases rest with
    | nil => simp [vary_sentence_complexity, h30, hcomma]
    | cons next rest2 => simp [vary_sentence_complexity, h30, hcomma]
  · intro s next rest2 k hno hs hnext
    refine ⟨pickText (g k) connectors, pickText_mem _ _ (by decide), ?_⟩
    simp [vary_sentence_complexity, hno, hs, hnext]
  · intro s next rest2 k hno hcond
    simp [vary_sentence_complexity, hno, hcond]
  · intro s k hno
    simp [vary_sentence_complexity, hno]

theorem vary_sentence_complexity_spec_witness :
    vary_sentence_complexity (fun _ => 0) ["Hi there.".toList] 3 =
      (["Hi there.".toList], 3) :=
  (vary_sentence_complexity_spec (fun _ => 0)).2.2.2 "Hi there.".toList 3
    (by decide)

/-! ## The Lexical Substitution Engine (`src/core/semantic_replacer.py`) -/

/-- The punctuation characters `.,;:!?` the engine strips and reattaches. -/
def punctChars : Text := ['.', ',', ';', ':', '!', '?']

/-- Python `word.strip('.,;:!?')`: those characters removed from both ends. -/
def stripPunct (l : Text) : Text :=
  ((l.dropWhile (punctChars.contains ·)).reverse.dropWhile
    (punctChars.contains ·)).reverse

/-- The token as `replace_discourse_markers` matches it:
`word.strip('.,;:!?').lower()`. -/
def cleanToken (w : Text) : Text := lowerText (stripPunct w)

/-- Python `word[0].isupper()` (false on an empty word). -/
def headIsUpper (l : Text) : Bool :=
  match l with
  | [] => false
  | c :: _ => c.isUpper

/-- Python `str.capitalize()`: first character upper-cased, the rest
lower-cased. -/
def pyCapitalize (l : Text) : Text :=
  match l with
  | [] => []
  | c :: cs => c.toUpper :: cs.map Char.toLower

/-- The trailing-punctuation reattachment of `replace_discourse_markers`: the
first character of `.,;:!?` (in that order) the word ends with, or nothing. -/
def trailingPunct (w : Text) : Text :=
  if w.getLast? == some '.' then ['.']
  else if w.getLast? == some ',' then [',']
  else if w.getLast? == some ';' then [';']
  else if w.getLast? == some ':' then [':']
  else if w.getLast? == some '!' then ['!']
  else if w.getLast? == some '?' then ['?']
  else []

/-- Does `pat` occur at the start of the text? -/
def startsWithSeq : Text → Text → Bool
  | [], _ => true
  | _ :: _, [] => false
  | p :: ps, c :: cs => p == c && startsWithSeq ps cs

/-- Python `pat in text`: does `pat` occur as a contiguous substring? -/
def containsSeq (pat : Text) : Text → Bool
  | [] => pat.isEmpty
  | c :: rest => startsWithSeq pat (c :: rest) || containsSeq pat rest

/-- Worker for Python `str.replace`: scan left to right, emitting the
replacement at each non-overlapping match; `skip` counts input characters
still covered by the last match. -/
def replaceAllGo (pat rep : Text) : Text → ℕ → Text
  | [], _ => []
  | c :: rest, 0 =>
    if startsWithSeq pat (c :: rest) && !pat.isEmpty then
      rep ++ replaceAllGo pat rep rest (pat.length - 1)
    else c :: replaceAllGo pat rep rest 0
  | _ :: rest, skip + 1 => replaceAllGo pat rep rest skip

/-- Python `text.replace(pat, rep)`: every occurrence replaced, left to
right. -/
def replaceAll (pat rep l : Text) : Text := replaceAllGo pat rep l 0

/-- Python `' '.join(tokens)`. -/
def joinSpace : List Text → Text
  | [] => []
  | [t] => t
  | t :: u :: rest => t ++ ' ' :: joinSpace (u :: rest)

/-- `SemanticReplacer.DISCOURSE_MARKERS`, in dictionary insertion order. -/
def DISCOURSE_MARKERS : List (Text × List Text) :=
  [("however".toList,
    ["nevertheless".toList, "nonetheless".toList, "that said".toList,
     "on the other hand".toList, "conversely".toList, "yet".toList]),
   ("therefore".toList,
    ["thus".toList, "hence".toList, "consequently".toList,
     "as a result".toList, "accordingly".toList, "for this reason".toList]),
   ("additionally".toList,
    ["furthermore".toList, "moreover".toList, "what's more".toList,
     "beyond that".toList, "in addition".toList, "also".toList]),
   ("in conclusion".toList,
    ["ultimately".toList, "in summary".toList, "to sum up".toList,
     "all things considered".toList, "in the end".toList]),
   ("for example".toList,
    ["for instance".toList, "such as".toList, "like".toList,
     "namely".toList, "to illustrate".toList]),
   ("in other words".toList,
    ["that is to say".toList, "put differently".toList,
     "to put it another way".toList, "namely".toList]),
   ("first".toList,
    ["firstly".toList, "to begin with".toList, "initially".toList,
     "first of all".toList]),
   ("finally".toList,
    ["lastly".toList, "in the end".toList, "ultimately".toList,
     "to conclude".toList])]

/-- `SemanticReplacer.PHRASE_SUBSTITUTIONS`, in dictionary insertion order. -/
def PHRASE_SUBSTITUTIONS : List (Text × List Text) :=
  [("in order to".toList,
    ["to".toList, "so as to".toList, "for the purpose of".toList]),
   ("due to the fact that".toList,
    ["because".toList, "since".toList, "as".toList, "given that".toList]),
   ("at this point in time".toList,
    ["now".toList, "currently".toList, "at present".toList]),
   ("in the event that".toList,
    ["if".toList, "should".toList, "in case".toList]),
   ("with regard to".toList,
    ["regarding".toList, "concerning".toList, "about".toList]),
   ("a number of".toList,
    ["several".toList, "many".toList, "some".toList]),
   ("in spite of".toList, ["despite".toList, "notwithstanding".toList]),
   ("prior to".toList, ["before".toList]),
   ("subsequent to".toList, ["after".toList, "following".toList]),
   ("in the process of".toList, ["currently".toList, "while".toList])]

/-- `SemanticReplacer.SYNONYM_GROUPS`: the curated formality-keyed table. -/
def SYNONYM_GROUPS : List (Text × List (String × List Text)) :=
  [("important".toList,
    [("formal", ["paramount".toList, "crucial".toList, "vital".toList,
       "essential".toList]),
     ("technical", ["critical".toList, "significant".toList, "key".toList]),
     ("casual", ["big".toList, "major".toList, "main".toList])]),
   ("show".toList,
    [("formal", ["demonstrate".toList, "illustrate".toList, "exhibit".toList]),
     ("technical", ["indicate".toList, "reveal".toList, "display".toList]),
     ("casual", ["prove".toList, "point out".toList])]),
   ("improve".toList,
    [("formal", ["enhance".toList, "augment".toList, "optimize".toList]),
     ("technical", ["refine".toList, "advance".toList, "upgrade".toList]),
     ("casual", ["boost".toList, "better".toList, "fix up".toList])]),
   ("use".toList,
    [("formal", ["utilize".toList, "employ".toList, "apply".toList]),
     ("technical", ["implement".toList, "deploy".toList, "leverage".toList]),
     ("casual", ["try".toList, "work with".toList])])]

/-- One word of the per-token loop of `replace_discourse_markers`: a token
whose cleaned form equals the marker is replaced by a random alternative with
the original capitalization reapplied and one trailing punctuation mark
reattached, consuming one draw; any other token passes through. -/
def markerWord (g : RandStream) (marker : Text) (alts : List Text) (w : Text)
    (k : ℕ) : Text × ℕ :=
  if cleanToken w == marker then
    ((if headIsUpper w then pyCapitalize (pickText (g k) alts)
      else pickText (g k) alts) ++ trailingPunct w, k + 1)
  else (w, k)

/-- The per-token loop of `replace_discourse_markers` over the split words. -/
def markerWords (g : RandStream) (marker : Text) (alts : List Text) :
    List Text → ℕ → List Text × ℕ
  | [], k => ([], k)
  | w :: ws, k =>
    let p := markerWord g marker alts w k
    let r := markerWords g marker alts ws p.2
    (p.1 :: r.1, r.2)

/-- One marker iteration of `replace_discourse_markers`: when the marker
occurs case-insensitively as a substring of the current text, the text is
whitespace-split, every matching token replaced, and the words rejoined with
single spaces; otherwise the text is untouched. -/
def applyMarker (g : RandStream) (entry : Text × List Text) (sk : Text × ℕ) :
    Text × ℕ :=
  if containsSeq (lowerText entry.1) (lowerText sk.1) then
    (joinSpace (markerWords g entry.1 entry.2 (splitWs sk.1) sk.2).1,
      (markerWords g entry.1 entry.2 (splitWs sk.1) sk.2).2)
  else sk

/-- `SemanticReplacer.replace_discourse_markers`: the loop over the marker
dictionary.  The state carries the current text and the draw counter. -/
def replace_discourse_markers (g : RandStream) (sk : Text × ℕ) : Text × ℕ :=
  DISCOURSE_MARKERS.foldl (fun sk e => applyMarker g e sk) sk

/-- One phrase iteration of `SemanticReplacer.replace_phrases`: when the
phrase occurs in the lower-cased text a random alternative is drawn (one draw,
whether or not a replacement happens); the literal phrase, else its
capitalized form, is then replaced everywhere. -/
def phraseStep (g : RandStream) (entry : Text × List Text) (sk : Text × ℕ) :
    Text × ℕ :=
  if containsSeq entry.1 (lowerText sk.1) then
    if containsSeq entry.1 sk.1 then
      (replaceAll entry.1 (pickText (g sk.2) entry.2) sk.1, sk.2 + 1)
    else if containsSeq (pyCapitalize entry.1) sk.1 then
      (replaceAll (pyCapitalize entry.1) (pyCapitalize (pickText (g sk.2) entry.2))
        sk.1, sk.2 + 1)
    else (sk.1, sk.2 + 1)
  else sk

/-- `SemanticReplacer.replace_phrases`: the loop over the phrase
dictionary. -/
def replace_phrases (g : RandStream) (sk : Text × ℕ) : Text × ℕ :=
  PHRASE_SUBSTITUTIONS.foldl (fun sk e => phraseStep g e sk) sk

/-- Layers 1 and 2 of `replace_semantics`: discourse markers, then phrases,
threading the shared draw counter from 0. -/
def layers12 (g : RandStream) (text : Text) : Text × ℕ :=
  replace_phrases g (replace_discourse_markers g (text, 0))

/-- A token of the external spaCy parse: surface text, coarse part-of-speech
tag and trailing whitespace (`text_with_ws = text ++ ws`). -/
structure Token where
  text : Text
  pos : String
  ws : Text

/-- The external parser (`NLPParser.parse`), abstracted. -/
abbrev ParseOracle := Text → List Token

/-- The external WordNet synonym lookup (`get_wordnet_synonyms`),
abstracted: word and optional part-of-speech letter to synonym list. -/
abbrev WordNetOracle := Text → Option Char → List Text

/-- The spaCy-to-WordNet part-of-speech map of `replace_semantics`. -/
def posMap (p : String) : Option Char :=
  if p == "VERB" then some 'v'
  else if p == "ADJ" then some 'a'
  else if p == "ADV" then some 'r'
  else none

/-- Capitalization preservation of `replace_with_synonym`: when the original
word starts upper-case the replacement is capitalized. -/
def applyCap (w rep : Text) : Text :=
  if headIsUpper w then pyCapitalize rep else rep

/-- `SemanticReplacer.replace_with_synonym`: the curated formality-keyed table
first (confidence 0.9), else the WordNet lookup (confidence 0.6), else the
word itself at confidence 0.0.  Result: (replacement, confidence, new draw
counter) — a draw is consumed only when a choice is made. -/
def replace_with_synonym (g : RandStream) (formality : String)
    (wn : WordNetOracle) (word : Text) (pos : Option Char) (k : ℕ) :
    Text × ℚ × ℕ :=
  match (SYNONYM_GROUPS.lookup (lowerText word)).bind
      (fun grp => grp.lookup formality) with
  | some opts => (applyCap word (pickText (g k) opts), mkRat 9 10, k + 1)
  | none =>
    match wn (lowerText word) pos with
    | [] => (word, 0, k)
    | s :: ss => (applyCap word (pickText (g k) (s :: ss)), mkRat 6 10, k + 1)

/-- A content token eligible for substitution: tagged verb, adjective or
adverb, with surface length greater than 4. -/
def qualifies (t : Token) : Bool :=
  (t.pos == "VERB" || t.pos == "ADJ" || t.pos == "ADV") && 4 < t.text.length

/-- The token loop of layer 3 of `replace_semantics`: each qualifying token
undergoes a Bernoulli trial at rate `intensity` (one draw); on success a
synonym is looked up and accepted only at confidence above 0.5; other tokens
are emitted as `text_with_ws.rstrip()`. -/
def substituteContentWords (g : RandStream) (intensity : ℚ) (formality : String)
    (wn : WordNetOracle) : List Token → ℕ → List Text × ℕ
  | [], k => ([], k)
  | t :: ts, k =>
    if qualifies t then
      if g k < intensity then
        let rc := replace_with_synonym g formality wn t.text (posMap t.pos) (k + 1)
        let r := substituteContentWords g intensity formality wn ts rc.2.2
        ((if rc.2.1 > mkRat 1 2 then rc.1 else t.text) :: r.1, r.2)
      else
        let r := substituteContentWords g intensity formality wn ts (k + 1)
        (t.text :: r.1, r.2)
    else
      let r := substituteContentWords g intensity formality wn ts k
      (rstripWs (t.text ++ t.ws) :: r.1, r.2)

/-- The punctuation-spacing repair of `replace_semantics`: for each mark of
`.,;:!?` in order, every occurrence of space-mark becomes the mark. -/
def fixPunct (l : Text) : Text :=
  punctChars.foldl (fun acc p => replaceAll [' ', p] [p] acc) l

/-- `SemanticReplacer.replace_semantics`: discourse markers, then phrases;
the content-word layer runs only when `intensity > 0.3`, rejoining the emitted
tokens with single spaces and repairing the space before punctuation. -/
def replace_semantics (parse : ParseOracle) (wn : WordNetOracle)
    (formality : String) (g : RandStream) (text : Text) (intensity : ℚ) :
    Text :=
  if intensity > mkRat 3 10 then
    fixPunct (joinSpace (substituteContentWords g intensity formality wn
      (parse (layers12 g text).1) (layers12 g text).2).1)
  else (layers12 g text).1

/-- A concrete parse for the counterexample: `They improve it now`, with only
`improve` an eligible content word (VERB of length above 4). -/
def c8parse : ParseOracle := fun _ =>
  [⟨"They".toList, "PRON", [' ']⟩, ⟨"improve".toList, "VERB", [' ']⟩,
   ⟨"it".toList, "PRON", [' ']⟩, ⟨"now".toList, "ADV", []⟩]

/-- A WordNet oracle returning no synonyms, for the counterexample. -/
def c8wn : WordNetOracle := fun _ _ => []

/-- Claim C8 counterexample: at intensity 0.2 — inside the claimed range
(0,1], with the draw 0 below the rate, the token `improve` eligible and the
curated table offering a confidence-0.9 synonym — `replace_semantics` leaves
the text unchanged, because the source runs the content-word layer only when
`intensity > 0.3`.  The same run at intensity 0.4 does substitute. -/
theorem replace_semantics_intensity_gate_cex :
    replace_semantics c8parse c8wn "formal" (fun _ => 0)
        "They improve it now".toList (mkRat 1 5) =
      "They improve it now".toList ∧
    (0:ℚ) < mkRat 1 5 ∧ mkRat 1 5 ≤ 1 ∧
    replace_semantics c8parse c8wn "formal" (fun _ => 0)
        "They improve it now".toList (mkRat 2 5) =
      "They enhance it now".toList := by
  refine ⟨?_, ?_, ?_, ?_⟩ <;> decide

/-- Python `str.capitalize()` can restore an upper-case initial for this
word: it is nonempty and upper-casing its first character yields an upper-case
character (true of every alphabetic word). -/
def headUpperable (s : Text) : Bool :=
  match s with
  | [] => false
  | c :: _ => (c.toUpper).isUpper

theorem headIsUpper_pyCapitalize (s : Text) (h : headUpperable s = true) :
    headIsUpper (pyCapitalize s) = true := by
  cases s with
  | nil => simp [headUpperable] at h
  | cons c cs => simpa [pyCapitalize, headIsUpper] using h

theorem lookup_mem {α β : Type} [BEq α] {l : List (α × β)} {a : α} {b : β}
    (h : l.lookup a = some b) : ∃ k, (k, b) ∈ l := by
  induction l with
  | nil => simp [List.lookup] at h
  | cons e es ih =>
    rw [List.lookup] at h
    cases ha : a == e.1 with
    | false =>
      rw [ha] at h
      obtain ⟨k, hk⟩ := ih h
      exact ⟨k, List.mem_cons_of_mem _ hk⟩
    | true =>
      rw [ha] at h
      have h' : some e.2 = some b := h
      have hb : b = e.2 := (Option.some.injEq _ _ ▸ h').symm
      subst hb
      exact ⟨e.1, by simp⟩

theorem synonym_groups_good : ∀ e ∈ SYNONYM_GROUPS, ∀ fo ∈ e.2,
    fo.2 ≠ [] ∧ ∀ s ∈ fo.2, headUpperable s = true := by decide

/-- Claim C8 (amended): the content-word layer of `replace_semantics` runs
only at intensity above 0.3.  When it runs, every token tagged verb,
adjective or adverb with surface length above 4 undergoes a Bernoulli trial
comparing one draw with the intensity; an attempted substitution is accepted
only at confidence above 0.5 — 0.9 from the curated formality-keyed table,
0.6 from the WordNet lookup, 0.0 (the word itself) otherwise; and an accepted
replacement preserves an upper-case initial of the original token (given that
WordNet returns capitalizable words).  Non-eligible tokens pass through as
`text_with_ws.rstrip()`. -/
theorem replace_semantics_content_word_spec (parse : ParseOracle)
    (wn : WordNetOracle) (formality : String) (g : RandStream) :
    (∀ (text : Text) (ι : ℚ), ¬(ι > mkRat 3 10) →
      replace_semantics parse wn formality g text ι = (layers12 g text).1) ∧
    (∀ (text : Text) (ι : ℚ), ι > mkRat 3 10 →
      replace_semantics parse wn formality g text ι =
        fixPunct (joinSpace (substituteContentWords g ι formality wn
          (parse (layers12 g text).1) (layers12 g text).2).1)) ∧
    (∀ (ι : ℚ) (ts : List Token) (k : ℕ),
      (substituteContentWords g ι formality wn ts k).1.length = ts.length) ∧
    (∀ (ι : ℚ) (ts : List Token) (k j : ℕ) (t : Token),
      ts[j]? = some t → qualifies t = false →
      (substituteContentWords g ι formality wn ts k).1[j]? =
        some (rstripWs (t.text ++ t.ws))) ∧
    (∀ (ι : ℚ) (ts : List Token) (k j : ℕ) (t : Token),
      ts[j]? = some t → qualifies t = true →
      ∃ k', (substituteContentWords g ι formality wn ts k).1[j]? =
        some (if g k' < ι then
            (if (replace_with_synonym g formality wn t.text (posMap t.pos)
                  (k' + 1)).2.1 > mkRat 1 2
             then (replace_with_synonym g formality wn t.text (posMap t.pos)
                  (k' + 1)).1
             else t.text)
          else t.text)) ∧
    (∀ (word : Text) (pos : Option Char) (k : ℕ),
      ((replace_with_synonym g formality wn word pos k).2.1 = mkRat 9 10 ∧
        ∃ grp opts, SYNONYM_GROUPS.lookup (lowerText word) = some grp ∧
          grp.lookup formality = some opts ∧
          (replace_with_synonym g formality wn word pos k).1 =
            applyCap word (pickText (g k) opts)) ∨
      ((replace_with_synonym g formality wn word pos k).2.1 = mkRat 6 10 ∧
        wn (lowerText word) pos ≠ [] ∧
        (replace_with_synonym g formality wn word pos k).1 =
          applyCap word (pickText (g k) (wn (lowerText word) pos))) ∨
      ((replace_with_synonym g formality wn word pos k).2.1 = 0 ∧
        (replace_with_synonym g formality wn word pos k).1 = word)) ∧
    (∀ (word : Text) (pos : Option Char) (k : ℕ),
      (∀ w p s, s ∈ wn w p → headUpperable s = true) →
      headIsUpper word = true →
      (replace_with_synonym g formality wn word pos k).2.1 > mkRat 1 2 →
      headIsUpper (replace_with_synonym g formality wn word pos k).1 = true) := by
  have hsyn : ∀ (word : Text) (pos : Option Char) (k : ℕ),
      ((replace_with_synonym g formality wn word pos k).2.1 = mkRat 9 10 ∧
        ∃ grp opts, SYNONYM_GROUPS.lookup (lowerText word) = some grp ∧
          grp.lookup formality = some opts ∧
          (replace_with_synonym g formality wn word pos k).1 =
            applyCap word (pickText (g k) opts)) ∨
      ((replace_with_synonym g formality wn word pos k).2.1 = mkRat 6 10 ∧
        wn (lowerText word) pos ≠ [] ∧
        (replace_with_synonym g formality wn word pos k).1 =
          applyCap word (pickText (g k) (wn (lowerText word) pos))) ∨
      ((replace_with_synonym g formality wn word pos k).2.1 = 0 ∧
        (replace_with_synonym g formality wn word pos k).1 = word) := by
    intro word pos k
    unfold replace_with_synonym
    cases hlk : (SYNONYM_GROUPS.lookup (lowerText word)).bind
        (fun grp => grp.lookup formality) with
    | some opts =>
      left
      obtain ⟨grp, hg1, hg2⟩ := Option.bind_eq_some.1 hlk
      exact ⟨rfl, grp, opts, hg1, hg2, rfl⟩
    | none =>
      cases hwn : wn (lowerText word) pos with
      | nil => right; right; exact ⟨rfl, rfl⟩
      | cons s ss =>
        right; left
        exact ⟨rfl, by simp [hwn], rfl⟩
  refine ⟨?_, ?_, ?_, ?_, ?_, hsyn, ?_⟩
  · intro text ι h
    unfold replace_semantics
    rw [if_neg h]
  · intro text ι h
    unfold replace_semantics
    rw [if_pos h]
  · intro ι ts
    induction ts with
    | nil => intro k; simp [substituteContentWords]
    | cons t ts ih =>
      intro k
      by_cases hq : qualifies t = true
      · by_cases ht : g k < ι
        · simp [substituteContentWords, hq, ht, ih]
        · simp [substituteContentWords, hq, ht, ih]
      · simp [substituteContentWords, Bool.of_not_eq_true hq, ih]
  · intro ι ts
    induction ts with
    | nil => intro k j t h; simp at h
    | cons u ts ih =>
      intro k j t hget hq
      cases j with
      | zero =>
        simp only [List.getElem?_cons_zero, Option.some.injEq] at hget
        subst hget
        simp [substituteContentWords, hq]
      | succ j' =>
        simp only [List.getElem?_cons_succ] at hget
        by_cases hu : qualifies u = true
        · by_cases ht : g k < ι
          · simpa [substituteContentWords, hu, ht] using ih _ _ _ hget hq
          · simpa [substituteContentWords, hu, ht] using ih _ _ _ hget hq
        · simpa [substituteContentWords, Bool.of_not_eq_true hu]
            using ih _ _ _ hget hq
  · intro ι ts
    induction ts with
    | nil => intro k j t h; simp at h
    | cons u ts ih =>
      intro k j t hget hq
      cases j with
      | zero =>
        simp only [List.getElem?_cons_zero, Option.some.injEq] at hget
        subst hget
        by_cases ht : g k < ι
        · refine ⟨k, ?_⟩
          simp [substituteContentWords, hq, ht]
        · refine ⟨k, ?_⟩
          simp [substituteContentWords, hq, ht]
      | succ j' =>
        simp only [List.getElem?_cons_succ] at hget
        by_cases hu : qualifies u = true
        · by_cases ht : g k < ι
          · obtain ⟨k', hk'⟩ := ih _ _ _ hget hq
            exact ⟨k', by simpa [substituteContentWords, hu, ht] using hk'⟩
          · obtain ⟨k', hk'⟩ := ih _ _ _ hget hq
            exact ⟨k', by simpa [substituteContentWords, hu, ht] using hk'⟩
        · obtain ⟨k', hk'⟩ := ih _ _ _ hget hq
          exact ⟨k', by simpa [substituteContentWords, Bool.of_not_eq_true hu]
            using hk'⟩
  · intro word pos k hwn hup hconf
    rcases hsyn word pos k with ⟨_, grp, opts, hg1, hg2, hrep⟩ |
        ⟨_, hne, hrep⟩ | ⟨hzero, _⟩
    · rw [hrep]
      unfold applyCap
      rw [if_pos hup]
      apply headIsUpper_pyCapitalize
      obtain ⟨k1, hk1⟩ := lookup_mem hg1
      obtain ⟨k2, hk2⟩ := lookup_mem hg2
      have hfacts := synonym_groups_good (k1, grp) hk1 (k2, opts) hk2
      exact hfacts.2 _ (pickText_mem _ _ hfacts.1)
    · rw [hrep]
      unfold applyCap
      rw [if_pos hup]
      apply headIsUpper_pyCapitalize
      exact hwn _ _ _ (pickText_mem _ _ hne)
    · rw [hzero] at hconf
      exact absurd hconf (by decide)

/-! ## Whitespace collapse by `replace_discourse_markers` (claim C10) -/

/-- No two adjacent ASCII spaces occur in the text. -/
def noDoubleSpace : Text → Bool
  | c1 :: c2 :: rest => !(c1 == ' ' && c2 == ' ') && noDoubleSpace (c2 :: rest)
  | _ => true

/-- The whitespace of the text is fully collapsed: every whitespace character
is a plain ASCII space, no two spaces are adjacent, and the text neither
starts nor ends with a space — every maximal whitespace run is one interior
ASCII space. -/
def collapsedWs (l : Text) : Prop :=
  (∀ c ∈ l, c.isWhitespace = true → c = ' ') ∧ noDoubleSpace l = true ∧
    l.head? ≠ some ' ' ∧ l.getLast? ≠ some ' '

/-- A word fit for single-space joining: nonempty with collapsed
whitespace. -/
def goodToken (l : Text) : Prop := l ≠ [] ∧ collapsedWs l

instance : DecidablePred collapsedWs := fun l => by
  unfold collapsedWs
  infer_instance

instance : DecidablePred goodToken := fun l => by
  unfold goodToken
  infer_instance

theorem mem_of_getLast?_eq {l : Text} {c : Char} (h : l.getLast? = some c) :
    c ∈ l := by
  induction l with
  | nil => simp at h
  | cons a l ih =>
    cases l with
    | nil =>
      simp only [List.getLast?_singleton, Option.some.injEq] at h
      simp [h]
    | cons b l' =>
      rw [List.getLast?_cons_cons] at h
      exact List.mem_cons_of_mem _ (ih h)

theorem noDouble_of_no_space : ∀ l : Text, (∀ c ∈ l, (c == ' ') = false) →
    noDoubleSpace l = true := by
  intro l
  induction l with
  | nil => intro _; rfl
  | cons a l ih =>
    intro h
    cases l with
    | nil => rfl
    | cons b l' =>
      have ha := h a (by simp)
      have hrest : ∀ c ∈ b :: l', (c == ' ') = false := by
        intro c hc
        exact h c (List.mem_cons_of_mem _ hc)
      simp only [noDoubleSpace, ha, Bool.false_and, Bool.not_false,
        Bool.true_and]
      exact ih hrest

theorem splitWsAux_tokens : ∀ (l acc : Text),
    (∀ c ∈ acc, c.isWhitespace = false) →
    ∀ t ∈ splitWsAux l acc, t ≠ [] ∧ ∀ c ∈ t, c.isWhitespace = false := by
  intro l
  induction l with
  | nil =>
    intro acc hacc t ht
    unfold splitWsAux at ht
    rcases hae : acc.isEmpty with _ | _
    · rw [hae] at ht
      simp only [Bool.false_eq_true, if_false, List.mem_singleton] at ht
      subst ht
      refine ⟨by simpa [List.isEmpty_iff] using hae, ?_⟩
      intro c hc
      exact hacc c (List.mem_reverse.1 hc)
    · rw [hae] at ht
      simp at ht
  | cons a l ih =>
    intro acc hacc t ht
    unfold splitWsAux at ht
    rcases haw : a.isWhitespace with _ | _
    · rw [haw] at ht
      simp only [Bool.false_eq_true, if_false] at ht
      refine ih (a :: acc) ?_ t ht
      intro c hc
      rcases List.mem_cons.1 hc with rfl | hc
      · exact haw
      · exact hacc c hc
    · rw [haw] at ht
      simp only [if_true] at ht
      rcases hae : acc.isEmpty with _ | _
      · rw [hae] at ht
        simp only [Bool.false_eq_true, if_false, List.mem_cons] at ht
        rcases ht with rfl | ht
        · refine ⟨by simpa [List.isEmpty_iff] using hae, ?_⟩
          intro c hc
          exact hacc c (List.mem_reverse.1 hc)
        · exact ih [] (by simp) t ht
      · rw [hae] at ht
        simp only [if_true] at ht
        exact ih [] (by simp) t ht

theorem splitWs_goodToken (l : Text) : ∀ t ∈ splitWs l, goodToken t := by
  intro t ht
  obtain ⟨hne, hnws⟩ := splitWsAux_tokens l [] (by simp) t ht
  have hnsp : ∀ c ∈ t, (c == ' ') = false := by
    intro c hc
    have := hnws c hc
    rcases hcs : c == ' ' with _ | _
    · rfl
    · have : c = ' ' := by simpa using hcs
      subst this
      simp at *
  refine ⟨hne, ?_, noDouble_of_no_space t hnsp, ?_, ?_⟩
  · intro c hc hw
    exact absurd hw (by simp [hnws c hc])
  · intro hh
    have : (' ' : Char) ∈ t := by
      cases t with
      | nil => simp at hh
      | cons a t' =>
        simp only [List.head?_cons, Option.some.injEq] at hh
        simp [hh]
    simpa using hnsp ' ' this
  · intro hh
    have := mem_of_getLast?_eq hh
    simpa using hnsp ' ' this

theorem noDouble_cons_space (J : Text) (hJ : noDoubleSpace J = true)
    (hh : J.head? ≠ some ' ') : noDoubleSpace (' ' :: J) = true := by
  cases J with
  | nil => rfl
  | cons j J' =>
    have hj : (j == ' ') = false := by
      rcases hjs : j == ' ' with _ | _
      · rfl
      · exact absurd (by simp [show j = ' ' by simpa using hjs]) hh
    simp [noDoubleSpace, hj, hJ]

theorem noDouble_append (l2 : Text) (h2 : noDoubleSpace l2 = true) :
    ∀ l1, noDoubleSpace l1 = true →
    (∀ a b, l1.getLast? = some a → l2.head? = some b →
      (a == ' ' && b == ' ') = false) →
    noDoubleSpace (l1 ++ l2) = true := by
  intro l1
  induction l1 with
  | nil => intro _ _; simpa using h2
  | cons a l1' ih =>
    intro h1 hj
    cases l1' with
    | nil =>
      cases l2 with
      | nil => rfl
      | cons b l2' =>
        have hab := hj a b (by simp) (by simp)
        simp only [List.singleton_append, noDoubleSpace, hab, Bool.not_false,
          Bool.true_and]
        exact h2
    | cons c l1'' =>
      have h1' : noDoubleSpace (c :: l1'') = true := by
        have := h1
        simp only [noDoubleSpace, Bool.and_eq_true] at this
        exact this.2
      have hac : (a == ' ' && c == ' ') = false := by
        have hh := h1
        simp only [noDoubleSpace, Bool.and_eq_true] at hh
        cases hb : (a == ' ' && c == ' ') with
        | false => rfl
        | true =>
          rw [hb] at hh
          simp at hh
      have hrec := ih h1' (by
        intro x y hx hy
        exact hj x y (by rw [List.getLast?_cons_cons]; exact hx) hy)
      simp only [List.cons_append] at hrec ⊢
      simp [noDoubleSpace, hac, hrec]

theorem joinSpace_ne_nil {t : Text} (ts : List Text) (h : t ≠ []) :
    joinSpace (t :: ts) ≠ [] := by
  cases ts with
  | nil => simpa [joinSpace] using h
  | cons u ts' => simp [joinSpace]

theorem joinSpace_head? {t : Text} (ts : List Text) (h : t ≠ []) :
    (joinSpace (t :: ts)).head? = t.head? := by
  cases ts with
  | nil => rfl
  | cons u ts' =>
    cases t with
    | nil => exact absurd rfl h
    | cons c t' => simp [joinSpace]

theorem getLast?_append_right (l1 : Text) {l2 : Text} (h : l2 ≠ []) :
    (l1 ++ l2).getLast? = l2.getLast? := by
  induction l1 with
  | nil => rfl
  | cons a l1' ih =>
    cases hl : l1' ++ l2 with
    | nil =>
      rcases List.append_eq_nil.1 hl with ⟨-, h2⟩
      exact absurd h2 h
    | cons b l3 =>
      rw [List.cons_append, hl, List.getLast?_cons_cons, ← hl, ih]

theorem collapsedWs_joinSpace : ∀ ts : List Text, (∀ t ∈ ts, goodToken t) →
    collapsedWs (joinSpace ts) := by
  intro ts
  induction ts with
  | nil =>
    intro _
    exact ⟨by simp [joinSpace], rfl, by simp [joinSpace], by simp [joinSpace]⟩
  | cons t ts' ih =>
    intro hgood
    have ht := hgood t (by simp)
    cases ts' with
    | nil => exact ht.2
    | cons u ts'' =>
      have hu : u ≠ [] := (hgood u (by simp)).1
      have hJ : collapsedWs (joinSpace (u :: ts'')) :=
        ih (fun x hx => hgood x (List.mem_cons_of_mem _ hx))
      have hJne : joinSpace (u :: ts'') ≠ [] := joinSpace_ne_nil ts'' hu
      have hJhead : (joinSpace (u :: ts'')).head? ≠ some ' ' := hJ.2.2.1
      have hshape : joinSpace (t :: u :: ts'') =
          t ++ ' ' :: joinSpace (u :: ts'') := rfl
      rw [hshape]
      refine ⟨?_, ?_, ?_, ?_⟩
      · intro c hc hw
        rcases List.mem_append.1 hc with hc | hc
        · exact ht.2.1 c hc hw
        · rcases List.mem_cons.1 hc with rfl | hc
          · rfl
          · exact hJ.1 c hc hw
      · refine noDouble_append (' ' :: joinSpace (u :: ts''))
          (noDouble_cons_space _ hJ.2.1 hJhead) t ht.2.2.1 ?_
        intro a b ha hb
        have hja : a ≠ ' ' := by
          intro hsp
          subst hsp
          exact ht.2.2.2.2 ha
        simp only [List.head?_cons, Option.some.injEq] at hb
        subst hb
        simp [hja]
      · cases t with
        | nil => exact absurd rfl ht.1
        | cons c t' =>
          simp only [List.cons_append, List.head?_cons]
          simpa using ht.2.2.2.1
      · rw [getLast?_append_right t (by simp)]
        cases hJc : joinSpace (u :: ts'') with
        | nil => exact absurd hJc hJne
        | cons j J' =>
          rw [List.getLast?_cons_cons]
          have hlast := hJ.2.2.2
          rw [hJc] at hlast
          exact hlast

/-- The possible results of `trailingPunct`. -/
def punctOptions : List Text := [[], ['.'], [','], [';'], [':'], ['!'], ['?']]

theorem trailingPunct_mem (w : Text) : trailingPunct w ∈ punctOptions := by
  unfold trailingPunct
  repeat' split
  all_goals decide

/-- A discourse-marker entry suitable for whitespace-collapsed rebuilding:
nonempty alternative list whose members, optionally capitalized and with any
one trailing punctuation mark attached, are good tokens. -/
def markerEntryOk (e : Text × List Text) : Prop :=
  e.2 ≠ [] ∧ ∀ a ∈ e.2, ∀ p ∈ punctOptions,
    goodToken (a ++ p) ∧ goodToken (pyCapitalize a ++ p)

instance : DecidablePred markerEntryOk := fun e => by
  unfold markerEntryOk
  infer_instance

theorem discourse_markers_good : ∀ e ∈ DISCOURSE_MARKERS, markerEntryOk e := by
  decide

theorem markerWord_good (g : RandStream) (marker : Text) (alts : List Text)
    (hentry : markerEntryOk (marker, alts)) (w : Text) (hw : goodToken w)
    (k : ℕ) : goodToken (markerWord g marker alts w k).1 := by
  unfold markerWord
  split
  · have hmem := pickText_mem (g k) alts hentry.1
    have hp := trailingPunct_mem w
    split
    · exact (hentry.2 _ hmem _ hp).2
    · exact (hentry.2 _ hmem _ hp).1
  · exact hw

theorem markerWords_good (g : RandStream) (marker : Text) (alts : List Text)
    (hentry : markerEntryOk (marker, alts)) :
    ∀ (ws : List Text) (k : ℕ), (∀ w ∈ ws, goodToken w) →
    ∀ t ∈ (markerWords g marker alts ws k).1, goodToken t := by
  intro ws
  induction ws with
  | nil => intro k _ t ht; simp [markerWords] at ht
  | cons w ws' ih =>
    intro k hws t ht
    simp only [markerWords] at ht
    rcases List.mem_cons.1 ht with rfl | ht
    · exact markerWord_good g marker alts hentry w (hws w (by simp)) k
    · exact ih _ (fun x hx => hws x (List.mem_cons_of_mem _ hx)) t ht

theorem applyMarker_no_match (g : RandStream) (e : Text × List Text)
    (sk : Text × ℕ) (h : containsSeq (lowerText e.1) (lowerText sk.1) = false) :
    applyMarker g e sk = sk := by
  simp [applyMarker, h]

theorem applyMarker_match_collapsed (g : RandStream) (e : Text × List Text)
    (he : markerEntryOk e) (sk : Text × ℕ)
    (h : containsSeq (lowerText e.1) (lowerText sk.1) = true) :
    collapsedWs (applyMarker g e sk).1 := by
  have he' : markerEntryOk (e.1, e.2) := he
  simp only [applyMarker, h, if_true]
  exact collapsedWs_joinSpace _
    (markerWords_good g e.1 e.2 he' (splitWs sk.1) sk.2
      (splitWs_goodToken sk.1))

theorem applyMarker_collapsed_preserved (g : RandStream)
    (e : Text × List Text) (he : markerEntryOk e) (sk : Text × ℕ)
    (h : collapsedWs sk.1) : collapsedWs (applyMarker g e sk).1 := by
  rcases hc : containsSeq (lowerText e.1) (lowerText sk.1) with _ | _
  · rw [applyMarker_no_match g e sk hc]
    exact h
  · exact applyMarker_match_collapsed g e he sk hc

theorem foldMarkers_collapsed (g : RandStream) :
    ∀ (ms : List (Text × List Text)), (∀ e ∈ ms, markerEntryOk e) →
    ∀ (sk : Text × ℕ),
    ((∃ e ∈ ms, containsSeq (lowerText e.1) (lowerText sk.1) = true) ∨
      collapsedWs sk.1) →
    collapsedWs ((ms.foldl (fun sk e => applyMarker g e sk) sk).1) := by
  intro ms
  induction ms with
  | nil =>
    intro _ sk h
    rcases h with ⟨e, he, _⟩ | h
    · simp at he
    · simpa using h
  | cons e es ih =>
    intro hgood sk h
    rw [List.foldl_cons]
    have hes : ∀ x ∈ es, markerEntryOk x :=
      fun x hx => hgood x (List.mem_cons_of_mem _ hx)
    have heok : markerEntryOk e := hgood e (by simp)
    rcases hc : containsSeq (lowerText e.1) (lowerText sk.1) with _ | _
    · rw [applyMarker_no_match g e sk hc]
      refine ih hes sk ?_
      rcases h with ⟨e', he', hce'⟩ | h
      · rcases List.mem_cons.1 he' with rfl | he'
        · rw [hc] at hce'
          simp at hce'
        · exact Or.inl ⟨e', he', hce'⟩
      · exact Or.inr h
    · exact ih hes _ (Or.inr (applyMarker_match_collapsed g e heok sk hc))

theorem splitWsAux_push : ∀ (t l acc : Text),
    (∀ c ∈ t, c.isWhitespace = false) →
    splitWsAux (t ++ l) acc = splitWsAux l (t.reverse ++ acc) := by
  intro t
  induction t with
  | nil => intro l acc _; simp
  | cons c t' ih =>
    intro l acc h
    have hc : c.isWhitespace = false := h c (by simp)
    have step : splitWsAux ((c :: t') ++ l) acc =
        splitWsAux (t' ++ l) (c :: acc) := by
      show splitWsAux (c :: (t' ++ l)) acc = _
      simp [splitWsAux, hc]
    rw [step, ih l (c :: acc) (fun x hx => h x (List.mem_cons_of_mem _ hx))]
    simp

theorem splitWs_joinSpace : ∀ ts : List Text,
    (∀ t ∈ ts, t ≠ [] ∧ ∀ c ∈ t, c.isWhitespace = false) →
    splitWs (joinSpace ts) = ts := by
  intro ts
  induction ts with
  | nil => intro _; rfl
  | cons t ts' ih =>
    intro h
    have ht := h t (by simp)
    cases ts' with
    | nil =>
      show splitWs t = [t]
      unfold splitWs
      have := splitWsAux_push t [] [] ht.2
      rw [List.append_nil] at this
      rw [this]
      unfold splitWsAux
      have hne : (t.reverse ++ []).isEmpty = false := by
        simp [List.isEmpty_iff, ht.1]
      rw [hne]
      simp
    | cons u ts'' =>
      have hshape : joinSpace (t :: u :: ts'') =
          t ++ ' ' :: joinSpace (u :: ts'') := rfl
      show splitWs (joinSpace (t :: u :: ts'')) = _
      rw [hshape]
      unfold splitWs
      rw [splitWsAux_push t _ [] ht.2]
      show splitWsAux (' ' :: joinSpace (u :: ts'')) (t.reverse ++ []) = _
      unfold splitWsAux
      rw [show (' ').isWhitespace = true from rfl]
      simp only [if_true]
      have hne : (t.reverse ++ []).isEmpty = false := by
        simp [List.isEmpty_iff, ht.1]
      rw [hne]
      simp only [Bool.false_eq_true, if_false]
      have hrec := ih (fun x hx => h x (List.mem_cons_of_mem _ hx))
      unfold splitWs at hrec
      rw [hrec]
      simp

theorem markerWords_id (g : RandStream) (marker : Text) (alts : List Text) :
    ∀ (ws : List Text) (k : ℕ),
    (∀ w ∈ ws, (cleanToken w == marker) = false) →
    markerWords g marker alts ws k = (ws, k) := by
  intro ws
  induction ws with
  | nil => intro k _; rfl
  | cons w ws' ih =>
    intro k h
    have hw : (cleanToken w == marker) = false := h w (by simp)
    simp only [markerWords, markerWord, hw, Bool.false_eq_true, if_false]
    rw [ih k (fun x hx => h x (List.mem_cons_of_mem _ hx))]

theorem foldMarkers_id (g : RandStream) (T : Text) :
    ∀ (ms : List (Text × List Text)),
    (∀ w ∈ splitWs T, ∀ e ∈ ms, (cleanToken w == e.1) = false) →
    ∀ (sk : Text × ℕ),
    ((sk.1 = T ∧ ∃ e ∈ ms, containsSeq (lowerText e.1) (lowerText T) = true) ∨
      sk.1 = joinSpace (splitWs T)) →
    ((ms.foldl (fun sk e => applyMarker g e sk) sk).1 = joinSpace (splitWs T)) := by
  have hgoodT : ∀ t ∈ splitWs T, t ≠ [] ∧ ∀ c ∈ t, c.isWhitespace = false := by
    intro t ht
    exact splitWsAux_tokens T [] (by simp) t ht
  have hsplitJ : splitWs (joinSpace (splitWs T)) = splitWs T :=
    splitWs_joinSpace (splitWs T) hgoodT
  intro ms
  induction ms with
  | nil =>
    intro _ sk h
    rcases h with ⟨-, e, he, -⟩ | h
    · simp at he
    · simpa using h
  | cons e es ih =>
    intro hclean sk h
    rw [List.foldl_cons]
    have hcleanes : ∀ w ∈ splitWs T, ∀ x ∈ es, (cleanToken w == x.1) = false :=
      fun w hw x hx => hclean w hw x (List.mem_cons_of_mem _ hx)
    rcases h with ⟨hT, e', he', hce'⟩ | hJ
    · rcases hc : containsSeq (lowerText e.1) (lowerText sk.1) with _ | _
      · rw [applyMarker_no_match g e sk hc]
        refine ih hcleanes sk ?_
        rcases List.mem_cons.1 he' with rfl | he'
        · rw [hT] at hc
          rw [hc] at hce'
          simp at hce'
        · exact Or.inl ⟨hT, e', he', hce'⟩
      · refine ih hcleanes _ (Or.inr ?_)
        simp only [applyMarker, hc, if_true]
        rw [hT]
        rw [markerWords_id g e.1 e.2 (splitWs T) sk.2
          (fun w hw => hclean w hw e (by simp))]
    · rcases hc : containsSeq (lowerText e.1) (lowerText sk.1) with _ | _
      · rw [applyMarker_no_match g e sk hc]
        exact ih hcleanes sk (Or.inr hJ)
      · refine ih hcleanes _ (Or.inr ?_)
        simp only [applyMarker, hc, if_true]
        rw [hJ, hsplitJ]
        rw [markerWords_id g e.1 e.2 (splitWs T) sk.2
          (fun w hw => hclean w hw e (by simp))]

/-- Claim C10: whenever at least one discourse-marker key occurs
case-insensitively in the input, `replace_discourse_markers` rebuilds the text
as its whitespace-split tokens rejoined with single ASCII spaces: every
maximal whitespace run of the input becomes one interior space (the output has
fully collapsed whitespace), and when no token of the input actually matches a
marker the output is exactly the rejoined token list, unchanged otherwise. -/
theorem replace_discourse_markers_collapse (g : RandStream) (text : Text)
    (k : ℕ)
    (h : ∃ e ∈ DISCOURSE_MARKERS,
      containsSeq (lowerText e.1) (lowerText text) = true) :
    collapsedWs (replace_discourse_markers g (text, k)).1 ∧
    ((∀ w ∈ splitWs text, ∀ e ∈ DISCOURSE_MARKERS,
        (cleanToken w == e.1) = false) →
      (replace_discourse_markers g (text, k)).1 = joinSpace (splitWs text)) := by
  constructor
  · exact foldMarkers_collapsed g DISCOURSE_MARKERS discourse_markers_good
      (text, k) (Or.inl h)
  · intro hT
    exact foldMarkers_id g text DISCOURSE_MARKERS hT (text, k)
      (Or.inl ⟨rfl, h⟩)

theorem replace_discourse_markers_collapse_witness :
    (replace_discourse_markers (fun _ => 0)
        ("Firstly,\n\nthe  test.".toList, 0)).1 =
      joinSpace (splitWs "Firstly,\n\nthe  test.".toList) ∧
    joinSpace (splitWs "Firstly,\n\nthe  test.".toList) =
      "Firstly, the test.".toList :=
  ⟨(replace_discourse_markers_collapse (fun _ => 0)
      "Firstly,\n\nthe  test.".toList 0 (by decide)).2 (by decide), by decide⟩

end BeatZ
